import Mathlib

/-!
Verification of the Locale Tree Reconciler
(src/client/app/services/translation-utils.service.js).

The JavaScript operates on two tree shapes:
- raw trees: nested mappings whose leaves are plain strings;
- processed trees: nested mappings whose leaves are objects
  of the form (_original, _translated).

Following the data model of the specification (section 3 and design
note 9), the embedding carries an explicit leaf/branch discriminant:
a processed leaf is a constructor, not a mapping holding the reserved
field names, so mapping keys never collide with the reserved fields.
The value stored in the _translated field can be a string, the
JavaScript null (the marker the code uses for a missing translation),
or the JavaScript undefined value (which arises when the code reads
the _translated property of a branch object); TransVal covers the
three cases.
-/

/-- A value of the _translated field: null, undefined, or a string. -/
inductive TransVal where
  | jnull : TransVal
  | jundefined : TransVal
  | jstr : String → TransVal
deriving DecidableEq

mutual
/-- A raw locale tree: leaves are plain strings, branches are keyed
mappings (modelled as ordered association lists, matching the
deterministic for-in iteration order of a JavaScript object). -/
inductive RawNode where
  | leaf : String → RawNode
  | node : RawEntries → RawNode

inductive RawEntries where
  | nil : RawEntries
  | cons : String → RawNode → RawEntries → RawEntries
end

mutual
/-- A processed locale tree: leaves carry the _original string and the
_translated value; branches are keyed mappings. -/
inductive PNode where
  | leaf : String → TransVal → PNode
  | node : PEntries → PNode

inductive PEntries where
  | nil : PEntries
  | cons : String → PNode → PEntries → PEntries
end

mutual
/-- The output shape of processedDataToRaw: leaves hold whatever value
the _translated field held (a string, null or undefined). -/
inductive RawOut where
  | leaf : TransVal → RawOut
  | node : RawOutEntries → RawOut

inductive RawOutEntries where
  | nil : RawOutEntries
  | cons : String → RawOut → RawOutEntries → RawOutEntries
end

/-- First-match lookup of a key among processed entries (models
reading an own property of a JavaScript object). -/
def lookupPE : PEntries → String → Option PNode
  | .nil, _ => none
  | .cons k c rest, q => if k = q then some c else lookupPE rest q

/-- First-match lookup of a key among raw entries. -/
def lookupRE : RawEntries → String → Option RawNode
  | .nil, _ => none
  | .cons k v rest, q => if k = q then some v else lookupRE rest q

/-- First-match lookup of a key among raw-output entries. -/
def lookupROE : RawOutEntries → String → Option RawOut
  | .nil, _ => none
  | .cons k v rest, q => if k = q then some v else lookupROE rest q

/-- Reading property k of a processed value: a branch yields its child
when present; a leaf has no mapping keys (the reserved fields are not
mapping keys in the discriminated model). -/
def objGet : PNode → String → Option PNode
  | .leaf _ _, _ => none
  | .node cs, k => lookupPE cs k

/-- Reading property k of a raw value. -/
def rawGet : RawNode → String → Option RawNode
  | .leaf _, _ => none
  | .node cs, k => lookupRE cs k

/-- Reading property k of a raw-output value. -/
def rawOutGet : RawOut → String → Option RawOut
  | .leaf _, _ => none
  | .node cs, k => lookupROE cs k

/-- The subtree of a processed tree at a key path (none when the path
is not present). -/
def pAt : PNode → List String → Option PNode
  | t, [] => some t
  | t, k :: p =>
    match objGet t k with
    | some c => pAt c p
    | none => none

/-- The subtree of a raw tree at a key path. -/
def rawAt : RawNode → List String → Option RawNode
  | t, [] => some t
  | t, k :: p =>
    match rawGet t k with
    | some c => rawAt c p
    | none => none

/-- The subtree of a raw-output tree at a key path. -/
def rawOutAt : RawOut → List String → Option RawOut
  | t, [] => some t
  | t, k :: p =>
    match rawOutGet t k with
    | some c => rawOutAt c p
    | none => none

/-- The ordered key list of processed entries. -/
def keysPE : PEntries → List String
  | .nil => []
  | .cons k _ rest => k :: keysPE rest

/-- The ordered key list of raw entries. -/
def keysRE : RawEntries → List String
  | .nil => []
  | .cons k _ rest => k :: keysRE rest

/-- Key list of the mapping found at a path of a processed tree
(none when the path is absent or holds a leaf). -/
def pKeysAt (t : PNode) (p : List String) : Option (List String) :=
  match pAt t p with
  | some (.node cs) => some (keysPE cs)
  | _ => none

/-- Key list of the mapping found at a path of a raw tree. -/
def rawKeysAt (t : RawNode) (p : List String) : Option (List String) :=
  match rawAt t p with
  | some (.node cs) => some (keysRE cs)
  | _ => none

/-- Reading the _translated property of a processed value: a leaf
yields its stored value, a branch object has no such property and the
read yields the JavaScript undefined. -/
def translatedProp : PNode → TransVal
  | .leaf _ t => t
  | .node _ => .jundefined

/-- The result object of buildNewData. -/
structure MergeResult where
  newData : PNode
  newUntranslatedKeysCount : Nat

mutual
/-- One step of buildNewDataRecursive for a single fresh entry
(key k holding raw value v), in the context of the existing processed
value data. Mirrors the JavaScript: an object value recurses with
data[k] or an empty object; otherwise a leaf is built with
_original = the fresh string, _translated = the empty string when the
fresh string is empty, else data[k]._translated when data has the key,
else null while counting the key as newly untranslated. Returns the
built processed value and its contribution to the counter. -/
def buildOne (data : PNode) (k : String) : RawNode → PNode × Nat
  | .leaf s =>
    if s = "" then (.leaf s (.jstr ""), 0)
    else
      match objGet data k with
      | some child => (.leaf s (translatedProp child), 0)
      | none => (.leaf s .jnull, 1)
  | .node cs =>
    (.node (buildList ((objGet data k).getD (.node .nil)) cs).1,
     (buildList ((objGet data k).getD (.node .nil)) cs).2)

/-- buildNewDataRecursive over the entries of a fresh object, in the
context of the existing processed value data. -/
def buildList (data : PNode) : RawEntries → PEntries × Nat
  | .nil => (.nil, 0)
  | .cons k v rest =>
    (.cons k (buildOne data k v).1 (buildList data rest).1,
     (buildOne data k v).2 + (buildList data rest).2)
end

/-- buildNewData (translation-utils.service.js, lines 69-96): merges
the existing processed data (defaulted to an empty object when absent,
as by data or empty-object in the source) with the freshly fetched raw
object. -/
def buildNewData (data : Option PNode) (latestData : RawEntries) : MergeResult :=
  ⟨.node (buildList (data.getD (.node .nil)) latestData).1,
   (buildList (data.getD (.node .nil)) latestData).2⟩

/-- The result object of statistics. -/
structure Stats where
  overallCount : Nat
  translatedCount : Nat
deriving DecidableEq

mutual
/-- statisticsRecursive handling of a single child: a leaf is skipped
entirely when its _translated value is the empty string; otherwise the
overall count increments, and the translated count increments when the
_translated value is not null. A branch recurses over its entries.
Returns (overall, translated) contributions. -/
def statsOne : PNode → Nat × Nat
  | .leaf _ t =>
    if t = .jstr "" then (0, 0)
    else (1, if t = .jnull then 0 else 1)
  | .node cs => statsE cs

/-- statisticsRecursive over the entries of a processed object. -/
def statsE : PEntries → Nat × Nat
  | .nil => (0, 0)
  | .cons _ c rest =>
    ((statsOne c).1 + (statsE rest).1, (statsOne c).2 + (statsE rest).2)
end

/-- statistics (translation-utils.service.js, lines 164-190) over a
processed object given by its entries. -/
def statistics (data : PEntries) : Stats :=
  ⟨(statsE data).1, (statsE data).2⟩

mutual
/-- unusedTranslatedKeysCountRecursive: when the current existing
value is a leaf object the guard skips every key, contributing 0;
a branch walks its entries. -/
def unusedRec : PNode → PNode → Nat
  | .leaf _ _, _ => 0
  | .node cs, latest => unusedRecE cs latest

/-- Walk of the existing entries against the latest processed value:
a key still present in latest recurses; a key absent from latest adds
the translated count of the removed subtree in bulk, via statistics
over the singleton object holding it. -/
def unusedRecE : PEntries → PNode → Nat
  | .nil, _ => 0
  | .cons k c rest, latest =>
    (match objGet latest k with
     | some l => unusedRec c l
     | none => (statistics (.cons k c .nil)).translatedCount) +
    unusedRecE rest latest
end

/-- unusedTranslatedKeysCount (translation-utils.service.js, lines
105-126): an absent existing data gives 0 immediately. -/
def unusedTranslatedKeysCount : Option PNode → PNode → Nat
  | none, _ => 0
  | some d, latest => unusedRec d latest

mutual
/-- processedDataToRaw (translation-utils.service.js, lines 134-144):
a child holding the _translated field maps to that field's value, any
other child recurses. -/
def processedDataToRaw : PNode → RawOut
  | .leaf _ t => .leaf t
  | .node cs => .node (pdrE cs)

/-- processedDataToRaw over the entries of a processed object. -/
def pdrE : PEntries → RawOutEntries
  | .nil => .nil
  | .cons k c rest => .cons k (processedDataToRaw c) (pdrE rest)
end

mutual
/-- untranslatedKeysGenerator (translation-utils.service.js, lines
202-214), materialized: walking a branch yields, for each child, the
child itself paired with the key chain when it is a leaf whose
_translated value is null, and recurses into branch children. The
sequence of yields is returned as a list in yield order. -/
def untranslatedKeysGenerator : PNode → List String → List (PNode × List String)
  | .leaf _ _, _ => []
  | .node cs, chain => ukgE cs chain

/-- The generator's walk over the entries of a processed object. -/
def ukgE : PEntries → List String → List (PNode × List String)
  | .nil, _ => []
  | .cons k c rest, chain =>
    (match c with
     | .leaf o t => if t = .jnull then [(.leaf o t, chain ++ [k])] else []
     | .node cs' => ukgE cs' (chain ++ [k])) ++
    ukgE rest chain
end

mutual
/-- The list of leaves of a raw tree, in for-in (pre-order) order,
each as the key path from the root together with the leaf string. -/
def rawLeaves : RawNode → List (List String × String)
  | .leaf s => [([], s)]
  | .node cs => rawLeavesE cs

def rawLeavesE : RawEntries → List (List String × String)
  | .nil => []
  | .cons k v rest =>
    (rawLeaves v).map (fun e => (k :: e.1, e.2)) ++ rawLeavesE rest
end

mutual
/-- The list of leaves of a processed tree, in pre-order, each as the
key path from the root together with the _original string and the
_translated value. -/
def pLeaves : PNode → List (List String × String × TransVal)
  | .leaf o t => [([], o, t)]
  | .node cs => pLeavesE cs

def pLeavesE : PEntries → List (List String × String × TransVal)
  | .nil => []
  | .cons k c rest =>
    (pLeaves c).map (fun e => (k :: e.1, e.2)) ++ pLeavesE rest
end

mutual
/-- The leaves of a processed tree in depth-first pre-order, each
paired with the chain of keys leading to it (the chain argument
prefixed with the keys walked so far), in the pairing the generator
uses: the leaf value itself together with the chain. -/
def preorderLeaves : PNode → List String → List (PNode × List String)
  | .leaf o t, chain => [(.leaf o t, chain)]
  | .node cs, chain => preorderLeavesE cs chain

def preorderLeavesE : PEntries → List String → List (PNode × List String)
  | .nil, _ => []
  | .cons k c rest, chain =>
    preorderLeaves c (chain ++ [k]) ++ preorderLeavesE rest chain
end

/-- Whether a processed value is a leaf whose _translated value is
null, i.e. a leaf the specification calls untranslated. -/
def isNullLeaf : PNode → Bool
  | .leaf _ .jnull => true
  | _ => false

/-- Whether a _translated value makes its leaf count as translated
under the statistics counting rule: the leaf is not skipped
(the value is not the empty string) and the value is not null. -/
def countedTranslated (t : TransVal) : Bool :=
  t != .jstr "" && t != .jnull

/-- Whether a _translated value makes its leaf count towards the
overall count under the statistics counting rule: the value is not
the empty string. -/
def countedOverall (t : TransVal) : Bool :=
  t != .jstr ""

mutual
/-- Well-formedness of a raw tree as a JavaScript object: the keys of
every mapping are pairwise distinct (a JavaScript object cannot hold
a key twice). -/
def rawWF : RawNode → Bool
  | .leaf _ => true
  | .node cs => rawWFE cs

def rawWFE : RawEntries → Bool
  | .nil => true
  | .cons k v rest =>
    !(keysRE rest).contains k && rawWF v && rawWFE rest
end

/-- Modelled on the words of claim C3 of the specification: the number
of leaves in the fresh tree whose value is not the empty string and
whose path is absent in the existing tree or whose existing counterpart
is a leaf with a null (absent) _translated value. -/
def claimedNewUntranslatedCount (d : PNode) (f : RawNode) : Nat :=
  (rawLeaves f).countP (fun e =>
    !(e.2 == "") &&
    (match pAt d e.1 with
     | none => true
     | some (.leaf _ .jnull) => true
     | some _ => false))

/-- Modelled on the words of claim C4 of the specification: a leaf
whose _original is the empty string is excluded from both counts; any
other leaf counts towards the overall count, and towards the
translated count exactly when its _translated value is a present
string. -/
def claimedStatistics (data : PEntries) : Stats :=
  ⟨(pLeavesE data).countP (fun e => !(e.2.1 == "")),
   (pLeavesE data).countP (fun e =>
     !(e.2.1 == "") &&
     (match e.2.2 with
      | .jstr _ => true
      | _ => false))⟩

/-- The _translated value the merge stores at a fresh leaf with string
value s found at path p, as a function of the existing processed
value: the empty string for an empty fresh string; otherwise the
_translated property of the existing value at that path when the path
is present (its stored value for a leaf, undefined for a mapping), and
null when the path is absent. -/
def carriedTranslated (d : PNode) (p : List String) (s : String) : TransVal :=
  if s = "" then .jstr ""
  else
    match pAt d p with
    | some c => translatedProp c
    | none => .jnull

/-- Looking a key up in the merged entries finds exactly the merge of
the fresh value under that key (keys and their order are preserved
entry by entry). -/
theorem lookupPE_buildList (f : RawEntries) (d : PNode) (q : String) :
    lookupPE (buildList d f).1 q =
      (lookupRE f q).map (fun v => (buildOne d q v).1) := by
  match f with
  | .nil => rfl
  | .cons k v rest =>
    simp only [buildList, lookupPE, lookupRE]
    by_cases h : k = q
    · subst h
      simp
    · simp [h, lookupPE_buildList rest d q]

/-- The merged entries carry exactly the fresh keys, in order. -/
theorem keysPE_buildList (f : RawEntries) (d : PNode) :
    keysPE (buildList d f).1 = keysRE f := by
  match f with
  | .nil => rfl
  | .cons k v rest =>
    simp only [buildList, keysPE, keysRE, keysPE_buildList rest d]

/-- Stepping through a nonempty path via the defaulted child context
agrees with looking the whole path up directly: a missing or leaf
child behaves as an empty mapping for the rest of the path. -/
theorem pAt_step (t : PNode) (k : String) (p : List String) (hp : p ≠ []) :
    pAt t (k :: p) = pAt ((objGet t k).getD (.node .nil)) p := by
  cases hg : objGet t k with
  | some c => simp [pAt, hg]
  | none =>
    simp only [pAt, hg, Option.getD_none]
    cases p with
    | nil => exact absurd rfl hp
    | cons k' p' => simp [pAt, objGet, lookupPE]

/-- Every leaf path produced from a list of raw entries is nonempty
(it starts with the entry's key). -/
theorem rawLeavesE_path_ne_nil (cs : RawEntries) :
    ∀ e ∈ rawLeavesE cs, e.1 ≠ [] := by
  match cs with
  | .nil => intro e he; simp [rawLeavesE] at he
  | .cons k v rest =>
    intro e he
    simp only [rawLeavesE, List.mem_append, List.mem_map] at he
    rcases he with ⟨a, _, rfl⟩ | he
    · simp
    · exact rawLeavesE_path_ne_nil rest e he

/-- Every leaf path produced from a list of processed entries is
nonempty. -/
theorem pLeavesE_path_ne_nil (cs : PEntries) :
    ∀ e ∈ pLeavesE cs, e.1 ≠ [] := by
  match cs with
  | .nil => intro e he; simp [pLeavesE] at he
  | .cons k c rest =>
    intro e he
    simp only [pLeavesE, List.mem_append, List.mem_map] at he
    rcases he with ⟨a, _, rfl⟩ | he
    · simp
    · exact pLeavesE_path_ne_nil rest e he

/-- Looking up a one-key path is looking up the key. -/
theorem pAt_singleton (d : PNode) (k : String) :
    pAt d [k] = objGet d k := by
  cases hg : objGet d k with
  | some c => simp [pAt, hg]
  | none => simp [pAt, hg]

mutual
/-- The counter contribution of merging one fresh value under key k
equals the number of its non-empty-string leaves whose full path
(prefixed with k) is absent from the existing processed value. -/
theorem buildOne_count (v : RawNode) (d : PNode) (k : String) :
    (buildOne d k v).2 =
      (rawLeaves v).countP
        (fun e => !(e.2 == "") && (pAt d (k :: e.1)).isNone) := by
  match v with
  | .leaf s =>
    simp only [rawLeaves, List.countP_singleton, pAt_singleton]
    by_cases hs : s = ""
    · subst hs
      simp [buildOne]
    · cases hg : objGet d k with
      | some c => simp [buildOne, hs, hg]
      | none => simp [buildOne, hs, hg]
  | .node cs =>
    simp only [buildOne, rawLeaves]
    rw [buildList_count cs ((objGet d k).getD (.node .nil))]
    refine (List.countP_congr fun e he => ?_).symm
    rw [pAt_step d k e.1 (rawLeavesE_path_ne_nil cs e he)]

/-- The counter contribution of merging a list of fresh entries equals
the number of their non-empty-string leaves whose path is absent from
the existing processed value. -/
theorem buildList_count (f : RawEntries) (d : PNode) :
    (buildList d f).2 =
      (rawLeavesE f).countP
        (fun e => !(e.2 == "") && (pAt d e.1).isNone) := by
  match f with
  | .nil => rfl
  | .cons k v rest =>
    simp only [buildList, rawLeavesE, List.countP_append, List.countP_map,
      buildOne_count v d k, buildList_count rest d]
    rfl
end

/-- The carried translation along a nonempty path factors through the
defaulted child context, like the merge recursion itself. -/
theorem carriedTranslated_step (d : PNode) (k : String) (p : List String)
    (s : String) (hp : p ≠ []) :
    carriedTranslated d (k :: p) s =
      carriedTranslated ((objGet d k).getD (.node .nil)) p s := by
  unfold carriedTranslated
  rw [pAt_step d k p hp]

/-- The merged value built for a single fresh leaf is that leaf's
string as _original together with the carried translation. -/
theorem buildOne_leaf (d : PNode) (k : String) (s : String) :
    (buildOne d k (.leaf s)).1 = .leaf s (carriedTranslated d [k] s) := by
  unfold buildOne carriedTranslated
  rw [pAt_singleton]
  by_cases hs : s = ""
  · simp [hs]
  · cases hg : objGet d k with
    | some c => simp [hs, hg]
    | none => simp [hs, hg]

/-- Wherever the fresh tree has a leaf, the merged tree has a leaf
whose _original is the fresh string and whose _translated is the
carried translation from the existing processed value. -/
theorem buildList_leaf_at (p : List String) :
    ∀ (d : PNode) (f : RawEntries) (s : String),
      rawAt (.node f) p = some (.leaf s) →
      pAt (.node (buildList d f).1) p = some (.leaf s (carriedTranslated d p s)) := by
  match p with
  | [] =>
    intro d f s h
    simp [rawAt] at h
  | k :: p' =>
    intro d f s h
    rw [rawAt] at h
    rw [pAt]
    have hobj : objGet (.node (buildList d f).1) k =
        (lookupRE f k).map (fun v => (buildOne d k v).1) := by
      rw [objGet, lookupPE_buildList]
    cases hl : lookupRE f k with
    | none =>
      rw [show rawGet (.node f) k = lookupRE f k from rfl, hl] at h
      simp at h
    | some v =>
      rw [show rawGet (.node f) k = lookupRE f k from rfl, hl] at h
      simp only at h
      rw [hobj, hl]
      simp only [Option.map_some']
      cases v with
      | leaf s' =>
        cases p' with
        | nil =>
          rw [rawAt] at h
          injection h with h
          injection h with h1
          subst h1
          rw [buildOne_leaf]
          rfl
        | cons k' p'' =>
          rw [rawAt] at h
          simp [rawGet] at h
      | node cs' =>
        have hp' : p' ≠ [] := by
          intro he
          subst he
          rw [rawAt] at h
          exact absurd h (by simp)
        rw [show (buildOne d k (.node cs')).1 =
            .node (buildList ((objGet d k).getD (.node .nil)) cs').1 from rfl]
        rw [carriedTranslated_step d k p' s hp']
        exact buildList_leaf_at p' ((objGet d k).getD (.node .nil)) cs' s h

/-- Key list at a nonempty path factors through the first key. -/
theorem pKeysAt_cons (t : PNode) (k : String) (p : List String) :
    pKeysAt t (k :: p) =
      (match objGet t k with
       | some c => pKeysAt c p
       | none => none) := by
  unfold pKeysAt
  rw [pAt]
  cases objGet t k with
  | some c => rfl
  | none => rfl

/-- Key list at a nonempty path factors through the first key. -/
theorem rawKeysAt_cons (t : RawNode) (k : String) (p : List String) :
    rawKeysAt t (k :: p) =
      (match rawGet t k with
       | some c => rawKeysAt c p
       | none => none) := by
  unfold rawKeysAt
  rw [rawAt]
  cases rawGet t k with
  | some c => rfl
  | none => rfl

/-- At every path, the merged tree holds a mapping exactly where the
fresh tree holds one, with the same ordered key list. -/
theorem buildList_keys_at (p : List String) :
    ∀ (d : PNode) (f : RawEntries),
      pKeysAt (.node (buildList d f).1) p = rawKeysAt (.node f) p := by
  match p with
  | [] =>
    intro d f
    simp [pKeysAt, rawKeysAt, pAt, rawAt, keysPE_buildList]
  | k :: p' =>
    intro d f
    rw [pKeysAt_cons, rawKeysAt_cons]
    rw [show objGet (.node (buildList d f).1) k =
        (lookupRE f k).map (fun v => (buildOne d k v).1) from by
      rw [objGet, lookupPE_buildList]]
    rw [show rawGet (.node f) k = lookupRE f k from rfl]
    cases hl : lookupRE f k with
    | none => rfl
    | some v =>
      simp only [Option.map_some']
      cases v with
      | leaf s =>
        rw [buildOne_leaf]
        cases p' with
        | nil => rfl
        | cons a b => rfl
      | node cs' =>
        exact buildList_keys_at p' ((objGet d k).getD (.node .nil)) cs'

/-- Merging against an existing leaf object behaves exactly like
merging against an empty mapping: a leaf holds no mapping keys. -/
theorem buildOne_leaf_ctx (v : RawNode) (o : String) (t : TransVal) (k : String) :
    buildOne (.leaf o t) k v = buildOne (.node .nil) k v := by
  cases v <;> rfl

/-- Merging a list of fresh entries against an existing leaf object
behaves exactly like merging against an empty mapping. -/
theorem buildList_leaf_ctx (f : RawEntries) (o : String) (t : TransVal) :
    buildList (.leaf o t) f = buildList (.node .nil) f := by
  match f with
  | .nil => rfl
  | .cons k v rest =>
    simp only [buildList, buildOne_leaf_ctx v o t k,
      buildList_leaf_ctx rest o t]

mutual
/-- The statistics contribution of one processed value is the count of
its leaves that are not skipped (overall) and of its leaves counted as
translated, under the code's counting rule on the _translated value. -/
theorem statsOne_eq (c : PNode) :
    statsOne c = ((pLeaves c).countP (fun e => countedOverall e.2.2),
                  (pLeaves c).countP (fun e => countedTranslated e.2.2)) := by
  match c with
  | .leaf o tv =>
    simp only [pLeaves, List.countP_singleton, statsOne]
    by_cases h1 : tv = .jstr ""
    · simp [h1, countedOverall, countedTranslated]
    · by_cases h2 : tv = .jnull
      · simp [h1, h2, countedOverall, countedTranslated]
      · simp [h1, h2, countedOverall, countedTranslated]
  | .node cs => exact statsE_eq cs

/-- The statistics of a list of processed entries count its leaves by
the code's counting rule on the _translated value. -/
theorem statsE_eq (cs : PEntries) :
    statsE cs = ((pLeavesE cs).countP (fun e => countedOverall e.2.2),
                 (pLeavesE cs).countP (fun e => countedTranslated e.2.2)) := by
  match cs with
  | .nil => rfl
  | .cons k c rest =>
    simp only [statsE, pLeavesE, List.countP_append, List.countP_map,
      statsOne_eq c, statsE_eq rest]
    rfl
end

mutual
/-- The unused walk over one existing value counts its leaves whose
path is absent from the latest processed value and whose _translated
value is counted as translated by the statistics rule. -/
theorem unusedRec_eq (c : PNode) (latest : PNode) :
    unusedRec c latest =
      (pLeaves c).countP
        (fun e => (pAt latest e.1).isNone && countedTranslated e.2.2) := by
  match c with
  | .leaf o t =>
    simp [unusedRec, pLeaves, List.countP_singleton, pAt]
  | .node cs => exact unusedRecE_eq cs latest

/-- The unused walk over a list of existing entries counts their
leaves whose path is absent from the latest processed value and whose
_translated value is counted as translated by the statistics rule. -/
theorem unusedRecE_eq (cs : PEntries) (latest : PNode) :
    unusedRecE cs latest =
      (pLeavesE cs).countP
        (fun e => (pAt latest e.1).isNone && countedTranslated e.2.2) := by
  match cs with
  | .nil => rfl
  | .cons k c rest =>
    simp only [unusedRecE, pLeavesE, List.countP_append, List.countP_map]
    rw [unusedRecE_eq rest latest]
    congr 1
    cases hg : objGet latest k with
    | some l =>
      dsimp only
      rw [unusedRec_eq c l]
      refine List.countP_congr fun e he => ?_
      simp only [Function.comp_apply]
      rw [show pAt latest (k :: e.1) = pAt l e.1 from by rw [pAt, hg]]
    | none =>
      dsimp only
      rw [show (statistics (.cons k c .nil)).translatedCount =
          (statsOne c).2 from by simp [statistics, statsE]]
      rw [statsOne_eq c]
      refine List.countP_congr fun e he => ?_
      simp only [Function.comp_apply]
      rw [show pAt latest (k :: e.1) = none from by rw [pAt, hg]]
      simp
end

/-- Looking a key up among converted entries finds the converted
child. -/
theorem lookupROE_pdrE (cs : PEntries) (k : String) :
    lookupROE (pdrE cs) k = (lookupPE cs k).map processedDataToRaw := by
  match cs with
  | .nil => rfl
  | .cons k' c rest =>
    simp only [pdrE, lookupROE, lookupPE]
    by_cases h : k' = k
    · simp [h]
    · simp [h, lookupROE_pdrE rest k]

/-- Conversion to raw commutes with path lookup: the converted tree at
a path is the conversion of the subtree at that path. -/
theorem rawOutAt_pdr (p : List String) :
    ∀ t : PNode,
      rawOutAt (processedDataToRaw t) p = (pAt t p).map processedDataToRaw := by
  match p with
  | [] => intro t; rfl
  | k :: p' =>
    intro t
    cases t with
    | leaf o tv => rfl
    | node cs =>
      rw [show processedDataToRaw (.node cs) = .node (pdrE cs) from rfl]
      rw [rawOutAt, pAt]
      rw [show rawOutGet (.node (pdrE cs)) k = lookupROE (pdrE cs) k from rfl,
          lookupROE_pdrE]
      rw [show objGet (.node cs) k = lookupPE cs k from rfl]
      cases hl : lookupPE cs k with
      | none => rfl
      | some c =>
        simp only [Option.map_some']
        exact rawOutAt_pdr p' c

/-- The generator's walk over a list of entries yields exactly the
pre-order leaves whose _translated value is null, in order, paired
with their key chains. -/
theorem ukgE_eq (cs : PEntries) (chain : List String) :
    ukgE cs chain =
      (preorderLeavesE cs chain).filter (fun e => isNullLeaf e.1) := by
  match cs with
  | .nil => rfl
  | .cons k c rest =>
    cases c with
    | leaf o tv =>
      simp only [ukgE, preorderLeavesE, preorderLeaves, List.filter_append]
      congr 1
      · cases tv with
        | jnull => simp [isNullLeaf]
        | jundefined => simp [isNullLeaf]
        | jstr s => simp [isNullLeaf]
      · exact ukgE_eq rest chain
    | node cs' =>
      simp only [ukgE, preorderLeavesE, preorderLeaves, List.filter_append]
      congr 1
      · exact ukgE_eq cs' (chain ++ [k])
      · exact ukgE_eq rest chain

/-- A successful key lookup means the key occurs among the keys. -/
theorem lookupRE_contains (cs : RawEntries) (q : String) (v : RawNode)
    (h : lookupRE cs q = some v) : (keysRE cs).contains q = true := by
  match cs with
  | .nil => simp [lookupRE] at h
  | .cons k v' rest =>
    rw [lookupRE] at h
    by_cases hk : k = q
    · simp [keysRE, hk]
    · rw [if_neg hk] at h
      have hrec := lookupRE_contains rest q v h
      simp only [keysRE, List.contains_cons]
      have hmem : q ∈ keysRE rest := by
        rw [List.contains] at hrec
        exact List.mem_of_elem_eq_true hrec
      simp [hmem]

mutual
/-- Re-merging a fresh value against a mapping that already holds, at
the value's key, the result of the first merge reproduces the first
merge's result. -/
theorem buildOne_stable (v : RawNode) (k : String) (d : PNode) (m : PEntries)
    (hwf : rawWF v = true)
    (hk : lookupPE m k = some (buildOne d k v).1) :
    (buildOne (.node m) k v).1 = (buildOne d k v).1 := by
  match v with
  | .leaf s =>
    by_cases hs : s = ""
    · subst hs; rfl
    · rw [buildOne_leaf d k s] at hk
      rw [buildOne_leaf, buildOne_leaf]
      congr 1
      have hunf : carriedTranslated (.node m) [k] s =
          (if s = "" then TransVal.jstr ""
           else match pAt (.node m) [k] with
             | some c => translatedProp c
             | none => .jnull) := rfl
      rw [hunf, pAt_singleton,
        show objGet (.node m) k = lookupPE m k from rfl, hk, if_neg hs]
      rfl
  | .node cs =>
    rw [show (buildOne (.node m) k (.node cs)).1 =
        .node (buildList ((objGet (.node m) k).getD (.node .nil)) cs).1 from rfl]
    rw [show objGet (.node m) k = lookupPE m k from rfl, hk]
    rw [show (buildOne d k (.node cs)).1 =
        .node (buildList ((objGet d k).getD (.node .nil)) cs).1 from rfl]
    simp only [Option.getD_some]
    exact congrArg PNode.node
      (buildList_stable cs ((objGet d k).getD (.node .nil))
        (buildList ((objGet d k).getD (.node .nil)) cs).1 hwf
        (fun q w hq => by rw [lookupPE_buildList, hq]; rfl))

/-- Re-merging fresh entries against a mapping that already holds, at
every fresh key, the result of the first merge reproduces the first
merge's entries, provided the fresh keys are pairwise distinct. -/
theorem buildList_stable (f : RawEntries) (d : PNode) (m : PEntries)
    (hwf : rawWFE f = true)
    (hcond : ∀ q w, lookupRE f q = some w →
      lookupPE m q = some (buildOne d q w).1) :
    (buildList (.node m) f).1 = (buildList d f).1 := by
  match f with
  | .nil => rfl
  | .cons k v rest =>
    rw [rawWFE] at hwf
    simp only [Bool.and_eq_true] at hwf
    obtain ⟨⟨hknotin, hwv⟩, hwrest⟩ := hwf
    simp only [buildList]
    congr 1
    · exact buildOne_stable v k d m hwv
        (hcond k v (by rw [lookupRE]; simp))
    · refine buildList_stable rest d m hwrest (fun q w hq => ?_)
      refine hcond q w ?_
      rw [lookupRE]
      have hne : k ≠ q := by
        intro he
        subst he
        rw [lookupRE_contains rest k w hq] at hknotin
        simp at hknotin
      rw [if_neg hne]
      exact hq
end

/-- C1, counterexample: the claim's carry-forward branch fails when the
fresh leaf value is the empty string. At path a the existing tree holds
the LeafPair (x, T), the fresh tree holds the leaf value empty string,
yet the merged leaf's _translated is the empty string, not T. -/
theorem claim1_counterexample :
    pAt (PNode.node (PEntries.cons "a" (PNode.leaf "x" (TransVal.jstr "T"))
          PEntries.nil)) ["a"]
      = some (PNode.leaf "x" (TransVal.jstr "T")) ∧
    rawAt (RawNode.node (RawEntries.cons "a" (RawNode.leaf "")
          RawEntries.nil)) ["a"]
      = some (RawNode.leaf "") ∧
    pAt (buildNewData
          (some (PNode.node (PEntries.cons "a"
            (PNode.leaf "x" (TransVal.jstr "T")) PEntries.nil)))
          (RawEntries.cons "a" (RawNode.leaf "") RawEntries.nil)).newData ["a"]
      = some (PNode.leaf "" (TransVal.jstr "")) ∧
    TransVal.jstr "" ≠ TransVal.jstr "T" := by
  refine ⟨rfl, rfl, rfl, ?_⟩
  decide

/-- C1 (amended): at every path where fresh has a leaf, the merged
tree has a leaf whose _original is the fresh string and whose
_translated is: the empty string when the fresh value is empty;
otherwise the existing pair's _translated when the existing value at
that path is a LeafPair, the undefined value when the existing value
there is a mapping, and null (absent) when the path is absent from
existing. In particular, for a non-empty fresh value over an existing
LeafPair the pair's _translated is carried forward unchanged. -/
theorem claim1_translated_carry (d : PEntries) (f : RawEntries)
    (p : List String) (s : String)
    (h : rawAt (.node f) p = some (.leaf s)) :
    pAt (buildNewData (some (.node d)) f).newData p
      = some (.leaf s (carriedTranslated (.node d) p s)) :=
  buildList_leaf_at p (.node d) f s h

/-- C1 witness: carrying Salut forward for the fresh leaf Hi at a. -/
theorem claim1_translated_carry_witness :
    pAt (buildNewData
          (some (PNode.node (PEntries.cons "a"
            (PNode.leaf "Hi" (TransVal.jstr "Salut")) PEntries.nil)))
          (RawEntries.cons "a" (RawNode.leaf "Hi") RawEntries.nil)).newData ["a"]
      = some (PNode.leaf "Hi" (TransVal.jstr "Salut")) := by
  have h := claim1_translated_carry
    (PEntries.cons "a" (PNode.leaf "Hi" (TransVal.jstr "Salut")) PEntries.nil)
    (RawEntries.cons "a" (RawNode.leaf "Hi") RawEntries.nil) ["a"] "Hi" rfl
  exact h

/-- C2: at every depth (path) the merged tree holds a mapping exactly
where fresh holds one, with exactly the fresh key list (existing keys
not present in fresh are dropped); and an existing branch that is a
leaf object rather than a mapping behaves exactly like an empty
mapping, with no error (the merge is a total function). -/
theorem claim2_key_set (d : PEntries) (f : RawEntries) :
    (∀ p, pKeysAt (buildNewData (some (.node d)) f).newData p
      = rawKeysAt (.node f) p) ∧
    (∀ o t, buildList (.leaf o t) f = buildList (.node .nil) f) :=
  ⟨fun p => buildList_keys_at p (.node d) f, fun o t => buildList_leaf_ctx f o t⟩

/-- C3, counterexample: a fresh leaf whose existing counterpart is a
LeafPair with a null (absent) _translated is claimed to be counted,
but the code does not count it: it carries the null forward and the
returned count is 0, not 1. -/
theorem claim3_counterexample :
    claimedNewUntranslatedCount
        (PNode.node (PEntries.cons "a" (PNode.leaf "x" TransVal.jnull)
          PEntries.nil))
        (RawNode.node (RawEntries.cons "a" (RawNode.leaf "x")
          RawEntries.nil)) = 1 ∧
    (buildNewData
        (some (PNode.node (PEntries.cons "a" (PNode.leaf "x" TransVal.jnull)
          PEntries.nil)))
        (RawEntries.cons "a" (RawNode.leaf "x") RawEntries.nil)
      ).newUntranslatedKeysCount = 0 :=
  ⟨rfl, rfl⟩

/-- C3 (amended): newUntranslatedKeysCount equals the number of leaves
in fresh whose value is not the empty string and whose full path is
absent from existing; a present counterpart never counts, whatever its
_translated value. -/
theorem claim3_new_count (d : PEntries) (f : RawEntries) :
    (buildNewData (some (.node d)) f).newUntranslatedKeysCount =
      (rawLeaves (.node f)).countP
        (fun e => !(e.2 == "") && (pAt (.node d) e.1).isNone) :=
  buildList_count f (.node d)

/-- C4, counterexample: the code keys the skip rule on _translated,
not on _original as the claim states. A leaf with non-empty _original
x and empty-string _translated is claimed to count 1 towards both
counts, but the code skips it entirely. -/
theorem claim4_counterexample :
    statistics (PEntries.cons "a" (PNode.leaf "x" (TransVal.jstr ""))
      PEntries.nil) = ⟨0, 0⟩ ∧
    claimedStatistics (PEntries.cons "a" (PNode.leaf "x" (TransVal.jstr ""))
      PEntries.nil) = ⟨1, 1⟩ :=
  ⟨rfl, rfl⟩

/-- C4 (amended): statistics excludes any leaf whose _translated value
is the empty string from both counts; every other leaf increments
overallCount, and increments translatedCount exactly when its
_translated value is not null (the undefined value counts as
translated). -/
theorem claim4_statistics (data : PEntries) :
    statistics data =
      ⟨(pLeavesE data).countP (fun e => countedOverall e.2.2),
       (pLeavesE data).countP (fun e => countedTranslated e.2.2)⟩ := by
  unfold statistics
  rw [statsE_eq]

/-- C5: a fresh empty-string leaf always yields an empty-string
_translated in the merged tree, regardless of the existing data, and
such leaves never contribute to newUntranslatedKeysCount (the count
never exceeds the number of non-empty fresh leaves). -/
theorem claim5_empty_string (d : PEntries) (f : RawEntries) :
    (∀ p, rawAt (.node f) p = some (.leaf "") →
      pAt (buildNewData (some (.node d)) f).newData p
        = some (.leaf "" (.jstr ""))) ∧
    (buildNewData (some (.node d)) f).newUntranslatedKeysCount ≤
      (rawLeaves (.node f)).countP (fun e => !(e.2 == "")) := by
  constructor
  · intro p h
    have hc := buildList_leaf_at p (.node d) f "" h
    rw [show carriedTranslated (.node d) p "" = .jstr "" from rfl] at hc
    exact hc
  · rw [show (buildNewData (some (.node d)) f).newUntranslatedKeysCount
        = (buildList (.node d) f).2 from rfl, buildList_count f (.node d)]
    refine List.countP_mono_left fun e he hp => ?_
    simp only [Bool.and_eq_true] at hp
    exact hp.1

/-- C5 witness: the fresh empty leaf at b yields an empty-string
translation over an existing tree that held y translated there. -/
theorem claim5_empty_string_witness :
    pAt (buildNewData
          (some (PNode.node (PEntries.cons "b"
            (PNode.leaf "y" (TransVal.jstr "old")) PEntries.nil)))
          (RawEntries.cons "b" (RawNode.leaf "") RawEntries.nil)).newData ["b"]
      = some (PNode.leaf "" (TransVal.jstr "")) :=
  (claim5_empty_string
    (PEntries.cons "b" (PNode.leaf "y" (TransVal.jstr "old")) PEntries.nil)
    (RawEntries.cons "b" (RawNode.leaf "") RawEntries.nil)).1 ["b"] rfl

/-- C6: unusedTranslatedKeysCount counts exactly the leaves of the
existing tree whose path is absent from the merged tree and whose
_translated value is counted as translated by the statistics rule
(the code reaches removed subtrees in bulk through the statistics
function itself); an absent existing tree gives 0. -/
theorem claim6_unused_count :
    (∀ (d : PEntries) (l : PEntries),
      unusedTranslatedKeysCount (some (.node d)) (.node l) =
        (pLeavesE d).countP
          (fun e => (pAt (.node l) e.1).isNone && countedTranslated e.2.2)) ∧
    (∀ l, unusedTranslatedKeysCount none l = 0) :=
  ⟨fun d l => unusedRecE_eq d (.node l), fun _ => rfl⟩

/-- C7: merging the merged result again against the same fresh tree
reproduces the merged tree exactly, for every fresh tree whose
mappings have pairwise distinct keys (every JavaScript object does). -/
theorem claim7_idempotent (d : PEntries) (f : RawEntries)
    (hwf : rawWFE f = true) :
    (buildNewData (some (buildNewData (some (.node d)) f).newData) f).newData =
      (buildNewData (some (.node d)) f).newData := by
  show PNode.node (buildList (.node (buildList (.node d) f).1) f).1
      = PNode.node (buildList (.node d) f).1
  exact congrArg PNode.node
    (buildList_stable f (.node d) (buildList (.node d) f).1 hwf
      (fun q w hq => by rw [lookupPE_buildList, hq]; rfl))

/-- C7 witness: a second merge against the same two-key fresh tree
changes nothing. -/
theorem claim7_idempotent_witness :
    (buildNewData
      (some (buildNewData
        (some (PNode.node (PEntries.cons "a"
          (PNode.leaf "x" (TransVal.jstr "y")) PEntries.nil)))
        (RawEntries.cons "a" (RawNode.leaf "x")
          (RawEntries.cons "b" (RawNode.leaf "z") RawEntries.nil))).newData)
      (RawEntries.cons "a" (RawNode.leaf "x")
        (RawEntries.cons "b" (RawNode.leaf "z") RawEntries.nil))).newData =
    (buildNewData
      (some (PNode.node (PEntries.cons "a"
        (PNode.leaf "x" (TransVal.jstr "y")) PEntries.nil)))
      (RawEntries.cons "a" (RawNode.leaf "x")
        (RawEntries.cons "b" (RawNode.leaf "z") RawEntries.nil))).newData :=
  claim7_idempotent
    (PEntries.cons "a" (PNode.leaf "x" (TransVal.jstr "y")) PEntries.nil)
    (RawEntries.cons "a" (RawNode.leaf "x")
      (RawEntries.cons "b" (RawNode.leaf "z") RawEntries.nil))
    rfl

/-- C8: processedDataToRaw is total by construction, maps every leaf
to its _translated value (an absent translation staying the null
value), and commutes with path lookup: the converted tree at every
path is the conversion of the processed subtree there, so every branch
is recursed structurally. -/
theorem claim8_to_raw (t : PNode) :
    (∀ p, rawOutAt (processedDataToRaw t) p
      = (pAt t p).map processedDataToRaw) ∧
    (∀ o tr, processedDataToRaw (.leaf o tr) = .leaf tr) :=
  ⟨fun p => rawOutAt_pdr p t, fun _ _ => rfl⟩

/-- C9: the untranslated-key enumeration yields exactly the leaves
whose _translated value is null (absent), each paired with the key
chain from the root, in depth-first pre-order; as a pure function of
the tree, repeated enumerations of an unchanged tree are equal. -/
theorem claim9_generator (cs : PEntries) (chain : List String) :
    untranslatedKeysGenerator (.node cs) chain =
      (preorderLeaves (.node cs) chain).filter (fun e => isNullLeaf e.1) :=
  ukgE_eq cs chain

/-- C10: every merged leaf's _original equals the fresh value at the
same path: the original text always comes from the freshly fetched
tree. -/
theorem claim10_original_from_fresh (d : PEntries) (f : RawEntries)
    (p : List String) (s : String)
    (h : rawAt (.node f) p = some (.leaf s)) :
    ∃ tv, pAt (buildNewData (some (.node d)) f).newData p
      = some (.leaf s tv) :=
  ⟨carriedTranslated (.node d) p s, buildList_leaf_at p (.node d) f s h⟩

/-- C10 witness: the merged leaf at c takes the fresh original New. -/
theorem claim10_original_from_fresh_witness :
    ∃ tv, pAt (buildNewData (some (PNode.node PEntries.nil))
        (RawEntries.cons "c" (RawNode.leaf "New") RawEntries.nil)).newData ["c"]
      = some (PNode.leaf "New" tv) :=
  claim10_original_from_fresh PEntries.nil
    (RawEntries.cons "c" (RawNode.leaf "New") RawEntries.nil) ["c"] "New" rfl
